import Mathlib

/-!
Verification development for the knapsack decision-diagram model
(vcoppe/knapsack). The definitions below are a shallow embedding of the
Rust sources:

- src/instance.rs          : KnapsackInstance
- src/resolution/model.rs  : KnapsackState, Knapsack (Problem impl),
                             KnapsackRelax (Relaxation impl)
- src/resolution/compression.rs : KnapsackCompression (meta weights,
                             reachable-capacity index, compress)

Machine integers (isize) are modelled as unbounded Int; the claims that
depend on the isize range make the bound explicit. The f64 profit/weight
ratio key used by sort_unstable_by_key is modelled by exact rational
comparison, implemented by integer cross-multiplication (the spec calls
the ordering undefined for zero-weight items). The floating-point floor
in fast_upper_bound is modelled as exact integer floor division; this is
an idealization that can exceed the value the program computes, because
the f64 product may round below the exact rational before flooring.
-/

/-- Embedding of KnapsackInstance (src/instance.rs). -/
structure KnapsackInstance where
  nb_items : Nat
  capacity : Int
  weight : List Int
  profit : List Int
deriving DecidableEq

/-- Embedding of KnapsackState (src/resolution/model.rs). -/
structure KnapsackState where
  depth : Nat
  capacity : Int
deriving DecidableEq

/-- Embedding of ddo::Decision: a variable index and a 0/1 value. -/
structure Decision where
  var : Nat
  value : Int
deriving DecidableEq

/-- Embedding of the Knapsack problem structure: an instance plus the
fixed decision order. -/
structure Knapsack where
  inst : KnapsackInstance
  order : List Nat
deriving DecidableEq

/-- The comparison on item indices used by Knapsack::new, which sorts by
the key OrderedFloat(-profit[i] / weight[i]). Ascending order on that
key means descending profit/weight ratio, i.e. i comes before j iff
-p_i/w_i is at most -p_j/w_j, i.e. p_j * w_i is at most p_i * w_j for
positive weights. -/
def ratioLe (inst : KnapsackInstance) (i j : Nat) : Bool :=
  decide (inst.profit.getD j 0 * inst.weight.getD i 0 ≤
    inst.profit.getD i 0 * inst.weight.getD j 0)

/-- Insertion step of the sort used to model sort_unstable_by_key. -/
def insertLe (le : Nat → Nat → Bool) (x : Nat) : List Nat → List Nat
  | [] => [x]
  | y :: ys => if le x y then x :: y :: ys else y :: insertLe le x ys

/-- Comparison sort used to model sort_unstable_by_key: produces a
permutation of the input sorted by the comparison. -/
def sortLe (le : Nat → Nat → Bool) : List Nat → List Nat
  | [] => []
  | x :: xs => insertLe le x (sortLe le xs)

/-- Embedding of Knapsack::new: the order is the item indices sorted by
descending profit/weight ratio. -/
def Knapsack.new (inst : KnapsackInstance) : Knapsack :=
  { inst := inst, order := sortLe (ratioLe inst) (List.range inst.nb_items) }

/-- Embedding of Problem::nb_variables. -/
def Knapsack.nb_variables (pb : Knapsack) : Nat :=
  pb.inst.nb_items

/-- Embedding of Problem::initial_state. -/
def Knapsack.initial_state (pb : Knapsack) : KnapsackState :=
  { depth := 0, capacity := pb.inst.capacity }

/-- Embedding of Problem::initial_value. -/
def Knapsack.initial_value (_pb : Knapsack) : Int :=
  0

/-- Embedding of Problem::transition. -/
def Knapsack.transition (pb : Knapsack) (s : KnapsackState) (d : Decision) :
    KnapsackState :=
  { depth := s.depth + 1,
    capacity := s.capacity - d.value * pb.inst.weight.getD d.var 0 }

/-- Embedding of Problem::transition_cost. -/
def Knapsack.transition_cost (pb : Knapsack) (_s : KnapsackState)
    (d : Decision) : Int :=
  d.value * pb.inst.profit.getD d.var 0

/-- Embedding of Problem::next_variable. -/
def Knapsack.next_variable (pb : Knapsack) (depth : Nat) : Option Nat :=
  if depth < pb.inst.nb_items then some (pb.order.getD depth 0) else none

/-- Embedding of Problem::for_each_in_domain: the list of decision
values offered for a variable in a state (value 0 always; value 1 only
when the remaining capacity covers the item weight). -/
def Knapsack.for_each_in_domain (pb : Knapsack) (v : Nat)
    (s : KnapsackState) : List Int :=
  [0] ++ (if pb.inst.weight.getD v 0 ≤ s.capacity then [1] else [])

/-- Embedding of KnapsackRelax. -/
structure KnapsackRelax where
  pb : Knapsack

/-- Embedding of Relaxation::merge. The Rust code first consumes one
state from the iterator to read the depth, then takes the maximum of
the capacities of the REMAINING states, falling back to the full
instance capacity when no state remains. -/
def KnapsackRelax.merge (r : KnapsackRelax) (states : List KnapsackState) :
    KnapsackState :=
  { depth := ((states.head?).map KnapsackState.depth).getD 0,
    capacity :=
      (((states.drop 1).map KnapsackState.capacity).max?).getD
        r.pb.inst.capacity }

/-- Embedding of Relaxation::relax: the edge cost is returned unchanged. -/
def KnapsackRelax.relax (_r : KnapsackRelax) (cost : Int) : Int :=
  cost

/-- Loop of Relaxation::fast_upper_bound, with fuel standing for the
number of remaining loop iterations (the loop increases depth by one
each iteration and stops at nb_items, so nb_items - depth iterations
suffice). The floating-point fractional profit is modelled as the
exact floor of capacity * profit / weight. -/
def Knapsack.fubLoop (pb : Knapsack) : Nat → Int → Nat → Int
  | _, _, 0 => 0
  | depth, capacity, fuel + 1 =>
    if 0 < capacity ∧ depth < pb.inst.nb_items then
      let item := pb.order.getD depth 0
      let w := pb.inst.weight.getD item 0
      let p := pb.inst.profit.getD item 0
      if w ≤ capacity then p + Knapsack.fubLoop pb (depth + 1) (capacity - w) fuel
      else Int.fdiv (capacity * p) w + Knapsack.fubLoop pb (depth + 1) 0 fuel
    else 0

/-- Embedding of Relaxation::fast_upper_bound. -/
def KnapsackRelax.fast_upper_bound (r : KnapsackRelax) (s : KnapsackState) :
    Int :=
  Knapsack.fubLoop r.pb s.depth s.capacity (r.pb.inst.nb_items - s.depth)

/-- Modelled from the spec: the Dominance implementation (get_key,
get_value, is_dominated_by) is declared by the spec but its source file
is not present under src/. Key of a state: its depth. -/
def get_key (s : KnapsackState) : Nat :=
  s.depth

/-- Modelled from the spec: value of a state for dominance: its
capacity. -/
def get_value (s : KnapsackState) : Int :=
  s.capacity

/-- Modelled from the spec: a is dominated by b iff a.capacity is at
most b.capacity (compared among states of equal key). -/
def is_dominated_by (a b : KnapsackState) : Bool :=
  decide (a.capacity ≤ b.capacity)

/-- States reachable from the initial state by transitions whose
decisions are offered by for_each_in_domain on the variable selected by
next_variable. -/
inductive Knapsack.Reachable (pb : Knapsack) : KnapsackState → Prop where
  | init : Knapsack.Reachable pb pb.initial_state
  | step (s : KnapsackState) (v : Nat) (val : Int) :
      Knapsack.Reachable pb s →
      pb.next_variable s.depth = some v →
      val ∈ pb.for_each_in_domain v s →
      Knapsack.Reachable pb (pb.transition s { var := v, value := val })

/-- Total transition cost of a decision-value sequence applied from a
state, following the fixed decision order; none if some value is not
offered by for_each_in_domain at its point of use, or if the sequence
does not have exactly one value per remaining variable. -/
def Knapsack.seqProfit (pb : Knapsack) : KnapsackState → List Int → Option Int
  | s, [] => if pb.inst.nb_items ≤ s.depth then some 0 else none
  | s, val :: rest =>
    match pb.next_variable s.depth with
    | none => none
    | some v =>
      if val ∈ pb.for_each_in_domain v s then
        (Knapsack.seqProfit pb (pb.transition s { var := v, value := val }) rest).map
          (fun r => pb.transition_cost s { var := v, value := val } + r)
      else none

/-- The value isize::MAX used to initialise the per-cluster minimum
weights in KnapsackCompression::compute_meta_weight. -/
def isizeMAX : Int :=
  2 ^ 63 - 1

/-- Fold of the loop in KnapsackCompression::compute_meta_weight: for
each (item index, cluster index) pair, lower the cluster entry of the
accumulator to the minimum with that item weight. -/
def metaFold (weight : List Int) : List (Nat × Nat) → List Int → List Int
  | [], acc => acc
  | (i, j) :: rest, acc =>
    metaFold weight rest (acc.set j (min (acc.getD j 0) (weight.getD i 0)))

/-- Embedding of KnapsackCompression::compute_meta_weight: each item
gets the minimum true weight within its cluster. -/
def compute_meta_weight (pb : Knapsack) (membership : List Nat)
    (n_meta_items : Nat) : List Int :=
  let meta := metaFold pb.inst.weight membership.enum
    (List.replicate n_meta_items isizeMAX)
  (List.range pb.inst.nb_items).map (fun i => meta.getD (membership.getD i 0) 0)

/-- The group count passed to the kmeans call inside
KnapsackCompression::new: the requested n_meta_items, unchanged. -/
def kmeans_groups (_problem : Knapsack) (n_meta_items : Nat) : Nat :=
  n_meta_items

/-- One breadth-first level of the enumeration loop in
KnapsackCompression::compute_meta_states: the states of depth d
produced from the initial state by the transitions whose decisions are
offered by for_each_in_domain, expanding while next_variable still
returns a variable. -/
def Knapsack.layer (pb : Knapsack) : Nat → List KnapsackState
  | 0 => [pb.initial_state]
  | d + 1 =>
    if d < pb.inst.nb_items then
      (Knapsack.layer pb d).flatMap (fun s =>
        (pb.for_each_in_domain (pb.order.getD d 0) s).map
          (fun val => pb.transition s { var := pb.order.getD d 0, value := val }))
    else []

/-- Embedding of KnapsackCompression::compute_meta_states: for each
depth d of the meta problem (one entry per depth 0..nb_items-1), the
set of capacities of the states reachable at depth d. -/
def compute_meta_states (meta_pb : Knapsack) : List (List Int) :=
  (List.range meta_pb.inst.nb_items).map
    (fun d => (meta_pb.layer d).map KnapsackState.capacity)

/-- The BTreeSet range query in KnapsackCompression::compress: the least
element of the recorded capacity set that is at least c, if any. -/
def leastGE (caps : List Int) (c : Int) : Option Int :=
  (caps.filter (fun x => decide (c ≤ x))).min?

/-- Embedding of KnapsackCompression::compress (exact-aware variant).
The Rust code indexes self.states[state.depth], which panics when
state.depth is out of bounds; this is modelled by returning none. -/
def compress (states : List (List Int)) (s : KnapsackState) :
    Option KnapsackState :=
  match states[s.depth]? with
  | none => none
  | some caps =>
    match leastGE caps s.capacity with
    | some cap => some { depth := s.depth, capacity := cap }
    | none => some s

/-- Embedding of KnapsackCompression::decompress: the identity on
decision sequences. -/
def decompress (solution : List Decision) : List Decision :=
  solution

/-- A tiny concrete instance used for witnesses: one item of weight 2
and profit 3, capacity 10. -/
def instOne : KnapsackInstance :=
  { nb_items := 1, capacity := 10, weight := [2], profit := [3] }

/-- The Knapsack problem built from the one-item instance. -/
def pbOne : Knapsack :=
  Knapsack.new instOne

/-- The relaxation built from the one-item problem. -/
def relaxOne : KnapsackRelax :=
  { pb := pbOne }

/-- Characterisation of the decision values offered by
for_each_in_domain. -/
theorem Knapsack.mem_for_each_in_domain (pb : Knapsack) (v : Nat)
    (s : KnapsackState) (val : Int) :
    val ∈ pb.for_each_in_domain v s ↔
      val = 0 ∨ (pb.inst.weight.getD v 0 ≤ s.capacity ∧ val = 1) := by
  by_cases h : pb.inst.weight.getD v 0 ≤ s.capacity <;>
    simp [Knapsack.for_each_in_domain, h]

/-- Entries of a list of nonnegative integers read through getD with
default 0 are nonnegative. -/
theorem getD_nonneg (l : List Int) (h : ∀ w ∈ l, 0 ≤ w) (i : Nat) :
    0 ≤ l.getD i 0 := by
  rcases lt_or_le i l.length with hi | hi
  · rw [List.getD_eq_getElem l 0 hi]
    exact h _ (List.getElem_mem hi)
  · rw [List.getD_eq_default l 0 hi]

/-- Claim C5: for_each_in_domain always offers value 0, offers value 1
exactly when the state capacity is at least the item weight, and offers
no other value. -/
theorem c5_domain_characterisation (pb : Knapsack) (v : Nat)
    (s : KnapsackState) :
    (0 : Int) ∈ pb.for_each_in_domain v s ∧
    ((1 : Int) ∈ pb.for_each_in_domain v s ↔
      pb.inst.weight.getD v 0 ≤ s.capacity) ∧
    (∀ val ∈ pb.for_each_in_domain v s, val = 0 ∨ val = 1) := by
  refine ⟨?_, ?_, ?_⟩
  · simp [Knapsack.for_each_in_domain]
  · by_cases h : pb.inst.weight.getD v 0 ≤ s.capacity <;>
      simp [Knapsack.for_each_in_domain, h]
  · intro val hval
    rcases (pb.mem_for_each_in_domain v s val).1 hval with h | h
    · exact Or.inl h
    · exact Or.inr h.2

/-- Witness for C5 at a concrete problem, variable and state. -/
theorem c5_domain_characterisation_witness :
    (0 : Int) ∈ pbOne.for_each_in_domain 0 { depth := 0, capacity := 5 } ∧
    ((0 : Int) = 0 ∨ (0 : Int) = 1) :=
  ⟨(c5_domain_characterisation pbOne 0 { depth := 0, capacity := 5 }).1,
    (c5_domain_characterisation pbOne 0 { depth := 0, capacity := 5 }).2.2 0
      (c5_domain_characterisation pbOne 0 { depth := 0, capacity := 5 }).1⟩

/-- Claim C6: with nonnegative weights and a nonnegative instance
capacity, every reachable state has capacity between 0 and the instance
capacity. -/
theorem c6_capacity_invariant (pb : Knapsack)
    (hw : ∀ w ∈ pb.inst.weight, 0 ≤ w) (hc : 0 ≤ pb.inst.capacity)
    (s : KnapsackState) (hs : pb.Reachable s) :
    0 ≤ s.capacity ∧ s.capacity ≤ pb.inst.capacity := by
  induction hs with
  | init => exact ⟨hc, le_refl _⟩
  | step s v val _hr _hv hval ih =>
    have hw0 : 0 ≤ pb.inst.weight.getD v 0 := getD_nonneg _ hw v
    rcases (pb.mem_for_each_in_domain v s val).1 hval with h | h
    · subst h
      simpa [Knapsack.transition] using ih
    · obtain ⟨hcap, hval1⟩ := h
      subst hval1
      simp only [Knapsack.transition, one_mul]
      omega

/-- Witness for C6 on the one-item instance at the initial state. -/
theorem c6_capacity_invariant_witness :
    (∀ w ∈ pbOne.inst.weight, 0 ≤ w) ∧ 0 ≤ pbOne.inst.capacity ∧
    (0 ≤ pbOne.initial_state.capacity ∧
      pbOne.initial_state.capacity ≤ pbOne.inst.capacity) :=
  ⟨by decide, by decide,
    c6_capacity_invariant pbOne (by decide) (by decide) _
      Knapsack.Reachable.init⟩

/-- Claim C9: the dominance relation is capacity comparison and is
transitive among states of equal key (spec-modelled: the Dominance
implementation is declared by the spec but not present under src/). -/
theorem c9_dominance_transitive :
    (∀ a b : KnapsackState,
      is_dominated_by a b = true ↔ a.capacity ≤ b.capacity) ∧
    (∀ a b c : KnapsackState, get_key a = get_key b → get_key b = get_key c →
      is_dominated_by a b = true → is_dominated_by b c = true →
      is_dominated_by a c = true) := by
  constructor
  · intro a b
    simp [is_dominated_by]
  · intro a b c _hab _hbc h1 h2
    simp only [is_dominated_by, decide_eq_true_eq] at h1 h2 ⊢
    exact le_trans h1 h2

/-- Witness for C9 at three concrete equal-depth states. -/
theorem c9_dominance_transitive_witness :
    is_dominated_by { depth := 0, capacity := 1 }
      { depth := 0, capacity := 3 } = true :=
  c9_dominance_transitive.2 { depth := 0, capacity := 1 }
    { depth := 0, capacity := 2 } { depth := 0, capacity := 3 }
    rfl rfl (by decide) (by decide)

/-- Claim C1 (evidence of the code bug): merge consumes the first state
for the depth and maximises the capacity only over the remaining
states. Merging the equal-depth states (depth 0, capacity 5) and
(depth 0, capacity 3) yields capacity 3 instead of the maximum 5 of
all inputs, and merging the singleton (depth 0, capacity 5) yields the
full instance capacity 10 instead of 5. -/
theorem c1_merge_eval :
    relaxOne.merge [{ depth := 0, capacity := 5 },
      { depth := 0, capacity := 3 }] = { depth := 0, capacity := 3 } ∧
    (relaxOne.merge [{ depth := 0, capacity := 5 },
      { depth := 0, capacity := 3 }]).capacity < 5 ∧
    relaxOne.merge [{ depth := 0, capacity := 5 }] =
      { depth := 0, capacity := 10 } := by
  decide

/-- Claim C7 (counterexample): with one item and a requested group
count of 2, the group count handed to the clustering call is 2, which
exceeds nb_items: no cap is applied before clustering. -/
theorem c7_counterexample :
    pbOne.inst.nb_items = 1 ∧ kmeans_groups pbOne 2 = 2 ∧
    ¬ kmeans_groups pbOne 2 ≤ pbOne.inst.nb_items := by
  decide

/-- Claim C7 (amended): KnapsackCompression::new passes the requested
meta-item count to the clustering call unchanged; no capping to
nb_items occurs. -/
theorem c7_group_count_uncapped (problem : Knapsack) (n_meta_items : Nat) :
    kmeans_groups problem n_meta_items = n_meta_items :=
  rfl

/-- The step function of the per-cluster minimum fold, restricted to one
cluster index. -/
def minStep (weight : List Int) (j : Nat) (m : Int) (p : Nat × Nat) : Int :=
  if p.2 = j then min m (weight.getD p.1 0) else m

/-- metaFold preserves the accumulator length. -/
theorem metaFold_length (weight : List Int) :
    ∀ (pairs : List (Nat × Nat)) (acc : List Int),
      (metaFold weight pairs acc).length = acc.length := by
  intro pairs
  induction pairs with
  | nil => intro acc; rfl
  | cons p rest ih =>
    intro acc
    obtain ⟨i, j⟩ := p
    rw [metaFold, ih, List.length_set]

/-- Reading one entry of the metaFold result amounts to folding the
minimum over the pairs that name that cluster index. -/
theorem metaFold_getD (weight : List Int) :
    ∀ (pairs : List (Nat × Nat)) (acc : List Int) (j : Nat),
      j < acc.length → (∀ p ∈ pairs, p.2 < acc.length) →
      (metaFold weight pairs acc).getD j 0 =
        pairs.foldl (minStep weight j) (acc.getD j 0) := by
  intro pairs
  induction pairs with
  | nil => intro acc j _ _; rfl
  | cons p rest ih =>
    intro acc j hj hin
    obtain ⟨i, j2⟩ := p
    have hj2 : j2 < acc.length := hin (i, j2) (List.mem_cons_self _ _)
    rw [metaFold, List.foldl_cons]
    have hlen : (acc.set j2 (min (acc.getD j2 0) (weight.getD i 0))).length =
        acc.length := List.length_set acc _ _
    rw [ih _ j (by rw [hlen]; exact hj)
      (fun p hp => by rw [hlen]; exact hin p (List.mem_cons_of_mem _ hp))]
    congr 1
    by_cases hjj : j2 = j
    · subst hjj
      rw [List.getD_eq_getElem?_getD, List.getElem?_set_self hj2,
        Option.getD_some, minStep, if_pos rfl]
    · rw [List.getD_eq_getElem?_getD, List.getElem?_set_ne hjj,
        ← List.getD_eq_getElem?_getD, minStep, if_neg hjj]

/-- The minimum fold never exceeds its starting value. -/
theorem foldl_minStep_le_init (weight : List Int) (j : Nat) :
    ∀ (pairs : List (Nat × Nat)) (a : Int),
      pairs.foldl (minStep weight j) a ≤ a := by
  intro pairs
  induction pairs with
  | nil => intro a; exact le_refl a
  | cons p rest ih =>
    intro a
    rw [List.foldl_cons]
    refine le_trans (ih _) ?_
    unfold minStep
    split
    · exact min_le_left _ _
    · exact le_refl a

/-- The minimum fold is bounded by the weight of every pair naming the
cluster index. -/
theorem foldl_minStep_le_mem (weight : List Int) (j : Nat) :
    ∀ (pairs : List (Nat × Nat)) (a : Int) (i : Nat),
      (i, j) ∈ pairs → pairs.foldl (minStep weight j) a ≤ weight.getD i 0 := by
  intro pairs
  induction pairs with
  | nil => intro a i h; cases h
  | cons p rest ih =>
    intro a i h
    rw [List.foldl_cons]
    rcases List.mem_cons.1 h with h | h
    · subst h
      refine le_trans (foldl_minStep_le_init weight j rest _) ?_
      unfold minStep
      rw [if_pos rfl]
      exact min_le_right _ _
    · exact ih _ i h

/-- The minimum fold result is the starting value or one of the weights
of the pairs naming the cluster index. -/
theorem foldl_minStep_attained (weight : List Int) (j : Nat) :
    ∀ (pairs : List (Nat × Nat)) (a : Int),
      pairs.foldl (minStep weight j) a = a ∨
      ∃ i, (i, j) ∈ pairs ∧
        pairs.foldl (minStep weight j) a = weight.getD i 0 := by
  intro pairs
  induction pairs with
  | nil => intro a; exact Or.inl rfl
  | cons p rest ih =>
    intro a
    rw [List.foldl_cons]
    rcases ih (minStep weight j a p) with h | h
    · rw [h]
      unfold minStep
      split
      · rcases min_choice a (weight.getD p.1 0) with hm | hm
        · exact Or.inl hm
        · rename_i hpj
          exact Or.inr ⟨p.1, by rw [← hpj]; exact List.mem_cons_self _ _, hm⟩
      · exact Or.inl rfl
    · obtain ⟨i, hmem, heq⟩ := h
      exact Or.inr ⟨i, List.mem_cons_of_mem _ hmem, heq⟩

/-- Reading a mapped range list at an in-range position. -/
theorem getD_map_range (g : Nat → Int) (n i : Nat) (h : i < n) :
    ((List.range n).map g).getD i 0 = g i := by
  have hl : i < ((List.range n).map g).length := by
    rw [List.length_map, List.length_range]
    exact h
  rw [List.getD_eq_getElem _ _ hl, List.getElem_map, List.getElem_range]

/-- An in-range getD read is a member of the list. -/
theorem getD_mem_nat (l : List Nat) (i : Nat) (h : i < l.length) :
    l.getD i 0 ∈ l := by
  rw [List.getD_eq_getElem l 0 h]
  exact List.getElem_mem h

/-- Enumerated pair for an in-range position. -/
theorem mem_enum_of_getD (l : List Nat) (k : Nat) (hk : k < l.length) :
    (k, l.getD k 0) ∈ l.enum := by
  rw [List.mem_enum_iff_getElem?]
  rw [List.getD_eq_getElem l 0 hk]
  exact List.getElem?_eq_getElem hk

/-- Conversely, an enumerated pair gives an in-range position and its
value. -/
theorem getD_of_mem_enum (l : List Nat) (p : Nat × Nat) (h : p ∈ l.enum) :
    p.1 < l.length ∧ l.getD p.1 0 = p.2 := by
  rw [List.mem_enum_iff_getElem?] at h
  have hlt : p.1 < l.length := by
    by_contra hge
    rw [List.getElem?_eq_none (le_of_not_lt hge)] at h
    cases h
  refine ⟨hlt, ?_⟩
  rw [List.getElem?_eq_getElem hlt] at h
  rw [List.getD_eq_getElem l 0 hlt]
  exact Option.some_injective _ h

/-- Claim C4: the meta-weight of every item is the minimum true weight
within its cluster; consequently it is bounded by the weight of every
item of the cluster, in particular by the item's own weight. -/
theorem c4_meta_weight_is_cluster_min (pb : Knapsack) (membership : List Nat)
    (n_meta_items : Nat)
    (hlen : membership.length = pb.inst.nb_items)
    (hmem : ∀ j ∈ membership, j < n_meta_items)
    (hmax : ∀ w ∈ pb.inst.weight, w ≤ isizeMAX)
    (i : Nat) (hi : i < pb.inst.nb_items) :
    (∀ k, k < pb.inst.nb_items →
      membership.getD k 0 = membership.getD i 0 →
      (compute_meta_weight pb membership n_meta_items).getD i 0 ≤
        pb.inst.weight.getD k 0) ∧
    (∃ k, k < pb.inst.nb_items ∧
      membership.getD k 0 = membership.getD i 0 ∧
      (compute_meta_weight pb membership n_meta_items).getD i 0 =
        pb.inst.weight.getD k 0) ∧
    (compute_meta_weight pb membership n_meta_items).getD i 0 ≤
      pb.inst.weight.getD i 0 := by
  have hmw : (compute_meta_weight pb membership n_meta_items).getD i 0 =
      (metaFold pb.inst.weight membership.enum
        (List.replicate n_meta_items isizeMAX)).getD (membership.getD i 0) 0 := by
    simp only [compute_meta_weight]
    exact getD_map_range _ _ i hi
  have hjlt : membership.getD i 0 < n_meta_items :=
    hmem _ (getD_mem_nat membership i (by rw [hlen]; exact hi))
  have hchar : (metaFold pb.inst.weight membership.enum
      (List.replicate n_meta_items isizeMAX)).getD (membership.getD i 0) 0 =
      membership.enum.foldl (minStep pb.inst.weight (membership.getD i 0))
        isizeMAX := by
    rw [metaFold_getD pb.inst.weight membership.enum _ _
      (by rw [List.length_replicate]; exact hjlt)
      (fun p hp => by
        rw [List.length_replicate]
        obtain ⟨h1, h2⟩ := getD_of_mem_enum membership p hp
        exact hmem _ (h2 ▸ getD_mem_nat membership p.1 h1))]
    congr 1
    rw [List.getD_eq_getElem?_getD, List.getElem?_replicate, if_pos hjlt,
      Option.getD_some]
  have hbound : ∀ k, k < pb.inst.nb_items →
      membership.getD k 0 = membership.getD i 0 →
      (compute_meta_weight pb membership n_meta_items).getD i 0 ≤
        pb.inst.weight.getD k 0 := by
    intro k hk hkj
    rw [hmw, hchar]
    apply foldl_minStep_le_mem
    have hmemk : (k, membership.getD k 0) ∈ membership.enum :=
      mem_enum_of_getD membership k (by rw [hlen]; exact hk)
    rwa [hkj] at hmemk
  refine ⟨hbound, ?_, hbound i hi rfl⟩
  rcases foldl_minStep_attained pb.inst.weight (membership.getD i 0)
      membership.enum isizeMAX with h | h
  · refine ⟨i, hi, rfl, ?_⟩
    have h1 := hbound i hi rfl
    have h2 : pb.inst.weight.getD i 0 ≤ isizeMAX := by
      rcases lt_or_le i pb.inst.weight.length with hw | hw
      · rw [List.getD_eq_getElem _ _ hw]
        exact hmax _ (List.getElem_mem hw)
      · rw [List.getD_eq_default _ _ hw]
        unfold isizeMAX
        norm_num
    rw [hmw, hchar] at h1 ⊢
    omega
  · obtain ⟨k, hkmem, heq⟩ := h
    obtain ⟨hk1, hk2⟩ := getD_of_mem_enum membership _ hkmem
    exact ⟨k, by rw [← hlen]; exact hk1, hk2, by rw [hmw, hchar]; exact heq⟩

/-- A two-item concrete instance used for the C4 witness. -/
def instTwo : KnapsackInstance :=
  { nb_items := 2, capacity := 10, weight := [5, 3], profit := [10, 4] }

/-- The Knapsack problem built from the two-item instance. -/
def pbTwo : Knapsack :=
  Knapsack.new instTwo

/-- Witness for C4: both items in one cluster, the meta weight of item
0 is bounded by its true weight. -/
theorem c4_meta_weight_is_cluster_min_witness :
    ([0, 0] : List Nat).length = pbTwo.inst.nb_items ∧
    (∀ j ∈ ([0, 0] : List Nat), j < 1) ∧
    (∀ w ∈ pbTwo.inst.weight, w ≤ isizeMAX) ∧
    (compute_meta_weight pbTwo [0, 0] 1).getD 0 0 ≤
      pbTwo.inst.weight.getD 0 0 :=
  ⟨by decide, by decide, by decide,
    (c4_meta_weight_is_cluster_min pbTwo [0, 0] 1 (by decide) (by decide)
      (by decide) 0 (by decide)).2.2⟩

/-- Inserting is a permutation of consing. -/
theorem perm_insertLe (le : Nat → Nat → Bool) (x : Nat) :
    ∀ l : List Nat, (insertLe le x l).Perm (x :: l) := by
  intro l
  induction l with
  | nil => exact List.Perm.refl _
  | cons y ys ih =>
    rw [insertLe]
    split
    · exact List.Perm.refl _
    · exact List.Perm.trans (ih.cons y) (List.Perm.swap x y ys)

/-- The sort is a permutation of its input. -/
theorem perm_sortLe (le : Nat → Nat → Bool) :
    ∀ l : List Nat, (sortLe le l).Perm l := by
  intro l
  induction l with
  | nil => exact List.Perm.refl _
  | cons x xs ih =>
    rw [sortLe]
    exact List.Perm.trans (perm_insertLe le x (sortLe le xs)) (ih.cons x)

/-- Membership in an insertion. -/
theorem mem_insertLe (le : Nat → Nat → Bool) (x a : Nat) (l : List Nat) :
    a ∈ insertLe le x l ↔ a = x ∨ a ∈ l := by
  rw [(perm_insertLe le x l).mem_iff, List.mem_cons]

/-- Inserting into a sorted list keeps it sorted, for a total
comparison that is transitive on the elements involved. -/
theorem pairwise_insertLe (le : Nat → Nat → Bool)
    (htot : ∀ a b : Nat, le a b = true ∨ le b a = true) :
    ∀ (l : List Nat) (x : Nat),
      (∀ a b c, a ∈ x :: l → b ∈ x :: l → c ∈ x :: l →
        le a b = true → le b c = true → le a c = true) →
      l.Pairwise (fun a b => le a b = true) →
      (insertLe le x l).Pairwise (fun a b => le a b = true) := by
  intro l
  induction l with
  | nil =>
    intro x _ _
    exact List.pairwise_singleton _ x
  | cons y ys ih =>
    intro x htrans hp
    obtain ⟨hy, hys⟩ := List.pairwise_cons.1 hp
    rw [insertLe]
    split
    · rename_i hxy
      refine List.pairwise_cons.2 ⟨?_, hp⟩
      intro b hb
      rcases List.mem_cons.1 hb with hb | hb
      · subst hb; exact hxy
      · exact htrans x y b (List.mem_cons_self _ _)
          (List.mem_cons_of_mem _ (List.mem_cons_self _ _))
          (List.mem_cons_of_mem _ (List.mem_cons_of_mem _ hb))
          hxy (hy b hb)
    · rename_i hxy
      have hyx : le y x = true := by
        rcases htot x y with h | h
        · exact absurd h hxy
        · exact h
      have hsub : ∀ a : Nat, a ∈ x :: ys → a ∈ x :: y :: ys := by
        intro a ha
        rcases List.mem_cons.1 ha with ha | ha
        · subst ha; exact List.mem_cons_self _ _
        · exact List.mem_cons_of_mem _ (List.mem_cons_of_mem _ ha)
      refine List.pairwise_cons.2 ⟨?_, ?_⟩
      · intro b hb
        rcases (mem_insertLe le x b ys).1 hb with hb | hb
        · subst hb; exact hyx
        · exact hy b hb
      · exact ih x
          (fun a b c ha hb hc => htrans a b c (hsub a ha) (hsub b hb) (hsub c hc))
          hys

/-- The sort output is sorted, for a total comparison that is
transitive on the input elements. -/
theorem pairwise_sortLe (le : Nat → Nat → Bool)
    (htot : ∀ a b : Nat, le a b = true ∨ le b a = true) :
    ∀ l : List Nat,
      (∀ a b c, a ∈ l → b ∈ l → c ∈ l →
        le a b = true → le b c = true → le a c = true) →
      (sortLe le l).Pairwise (fun a b => le a b = true) := by
  intro l
  induction l with
  | nil => intro _; exact List.Pairwise.nil
  | cons x xs ih =>
    intro htrans
    rw [sortLe]
    have hsub : ∀ a : Nat, a ∈ x :: sortLe le xs → a ∈ x :: xs := by
      intro a ha
      rcases List.mem_cons.1 ha with ha | ha
      · subst ha; exact List.mem_cons_self _ _
      · exact List.mem_cons_of_mem _ ((perm_sortLe le xs).mem_iff.1 ha)
    refine pairwise_insertLe le htot (sortLe le xs) x
      (fun a b c ha hb hc => htrans a b c (hsub a ha) (hsub b hb) (hsub c hc)) ?_
    exact ih (fun a b c ha hb hc =>
      htrans a b c (List.mem_cons_of_mem _ ha) (List.mem_cons_of_mem _ hb)
        (List.mem_cons_of_mem _ hc))

/-- The constructed order has one position per item. -/
theorem new_order_length (inst : KnapsackInstance) :
    (Knapsack.new inst).order.length = inst.nb_items := by
  show (sortLe (ratioLe inst) (List.range inst.nb_items)).length = _
  rw [(perm_sortLe _ _).length_eq, List.length_range]

/-- Every entry of the constructed order is an item index. -/
theorem new_order_entry_lt (inst : KnapsackInstance) (k : Nat)
    (hk : k < inst.nb_items) :
    (Knapsack.new inst).order.getD k 0 < inst.nb_items := by
  have hmem : (Knapsack.new inst).order.getD k 0 ∈ (Knapsack.new inst).order :=
    getD_mem_nat _ k (by rw [new_order_length]; exact hk)
  have : (Knapsack.new inst).order.getD k 0 ∈ List.range inst.nb_items :=
    (perm_sortLe (ratioLe inst) (List.range inst.nb_items)).mem_iff.1 hmem
  exact List.mem_range.1 this

/-- Weight of the item decided at position k of the order. -/
def Knapsack.wAt (pb : Knapsack) (k : Nat) : Int :=
  pb.inst.weight.getD (pb.order.getD k 0) 0

/-- Profit of the item decided at position k of the order. -/
def Knapsack.pAt (pb : Knapsack) (k : Nat) : Int :=
  pb.inst.profit.getD (pb.order.getD k 0) 0

/-- Exact profit/weight ratio of the item decided at position k. -/
def Knapsack.ratioAt (pb : Knapsack) (k : Nat) : ℚ :=
  (pb.pAt k : ℚ) / (pb.wAt k : ℚ)

/-- The ratio comparison is total. -/
theorem ratioLe_total (inst : KnapsackInstance) (a b : Nat) :
    ratioLe inst a b = true ∨ ratioLe inst b a = true := by
  unfold ratioLe
  rcases le_total (inst.profit.getD b 0 * inst.weight.getD a 0)
      (inst.profit.getD a 0 * inst.weight.getD b 0) with h | h
  · exact Or.inl (decide_eq_true h)
  · exact Or.inr (decide_eq_true h)

/-- The ratio comparison is transitive on valid item indices when
weights are positive and profits nonnegative. -/
theorem ratioLe_trans_on_range (inst : KnapsackInstance)
    (hlw : inst.weight.length = inst.nb_items)
    (hw : ∀ w ∈ inst.weight, 0 < w)
    (a b c : Nat) (ha : a < inst.nb_items) (hb : b < inst.nb_items)
    (hc : c < inst.nb_items)
    (h1 : ratioLe inst a b = true) (h2 : ratioLe inst b c = true) :
    ratioLe inst a c = true := by
  have hwa : 0 < inst.weight.getD a 0 := by
    rw [List.getD_eq_getElem _ _ (by rw [hlw]; exact ha)]
    exact hw _ (List.getElem_mem _)
  have hwb : 0 < inst.weight.getD b 0 := by
    rw [List.getD_eq_getElem _ _ (by rw [hlw]; exact hb)]
    exact hw _ (List.getElem_mem _)
  have hwc : 0 < inst.weight.getD c 0 := by
    rw [List.getD_eq_getElem _ _ (by rw [hlw]; exact hc)]
    exact hw _ (List.getElem_mem _)
  unfold ratioLe at h1 h2 ⊢
  rw [decide_eq_true_eq] at h1 h2 ⊢
  have h3 := mul_le_mul_of_nonneg_right h1 (le_of_lt hwc)
  have h4 := mul_le_mul_of_nonneg_right h2 (le_of_lt hwa)
  have key : inst.weight.getD b 0 * (inst.profit.getD c 0 * inst.weight.getD a 0) ≤
      inst.weight.getD b 0 * (inst.profit.getD a 0 * inst.weight.getD c 0) := by
    nlinarith
  exact le_of_mul_le_mul_left key hwb

/-- Positional sortedness of the constructed order: along the order the
exact profit/weight ratios are nonincreasing. -/
theorem new_sorted_ratioAt (inst : KnapsackInstance)
    (hlw : inst.weight.length = inst.nb_items)
    (hw : ∀ w ∈ inst.weight, 0 < w)
    (k1 k2 : Nat) (h12 : k1 ≤ k2) (h2 : k2 < inst.nb_items) :
    (Knapsack.new inst).ratioAt k2 ≤ (Knapsack.new inst).ratioAt k1 := by
  rcases eq_or_lt_of_le h12 with heq | hlt
  · subst heq; exact le_refl _
  have hpair : ((Knapsack.new inst).order).Pairwise
      (fun a b => ratioLe inst a b = true) := by
    show (sortLe (ratioLe inst) (List.range inst.nb_items)).Pairwise _
    refine pairwise_sortLe (ratioLe inst) (ratioLe_total inst) _ ?_
    intro a b c ha hb hc
    exact ratioLe_trans_on_range inst hlw hw a b c
      (List.mem_range.1 ha) (List.mem_range.1 hb) (List.mem_range.1 hc)
  have hlen : ((Knapsack.new inst).order).length = inst.nb_items :=
    new_order_length inst
  have hk1 : k1 < ((Knapsack.new inst).order).length := by
    rw [hlen]; exact lt_trans hlt h2
  have hk2 : k2 < ((Knapsack.new inst).order).length := by
    rw [hlen]; exact h2
  have hle := (List.pairwise_iff_getElem.1 hpair) k1 k2 hk1 hk2 hlt
  rw [← List.getD_eq_getElem _ 0 hk1, ← List.getD_eq_getElem _ 0 hk2] at hle
  unfold ratioLe at hle
  rw [decide_eq_true_eq] at hle
  have hwa : (0 : Int) < (Knapsack.new inst).wAt k1 := by
    unfold Knapsack.wAt
    simp only [Knapsack.new]
    rw [List.getD_eq_getElem _ _
      (by rw [hlw]; exact new_order_entry_lt inst k1 (lt_trans hlt h2))]
    exact hw _ (List.getElem_mem _)
  have hwb : (0 : Int) < (Knapsack.new inst).wAt k2 := by
    unfold Knapsack.wAt
    simp only [Knapsack.new]
    rw [List.getD_eq_getElem _ _
      (by rw [hlw]; exact new_order_entry_lt inst k2 h2)]
    exact hw _ (List.getElem_mem _)
  unfold Knapsack.ratioAt
  rw [div_le_div_iff₀ (by exact_mod_cast hwb) (by exact_mod_cast hwa)]
  have hcast : ∀ a b : Int, (a : ℚ) * (b : ℚ) = ((a * b : Int) : ℚ) := by
    intro a b; push_cast; ring
  rw [hcast, hcast, Int.cast_le]
  unfold Knapsack.pAt Knapsack.wAt
  simp only [Knapsack.new]
  exact hle

/-- Exact-rational version of the fast_upper_bound loop: same recursion,
with the fractional item counted exactly instead of floored. -/
def Knapsack.fubF (pb : Knapsack) : Nat → ℚ → Nat → ℚ
  | _, _, 0 => 0
  | depth, capacity, fuel + 1 =>
    if 0 < capacity ∧ depth < pb.inst.nb_items then
      if (pb.wAt depth : ℚ) ≤ capacity then
        (pb.pAt depth : ℚ) +
          Knapsack.fubF pb (depth + 1) (capacity - (pb.wAt depth : ℚ)) fuel
      else
        capacity * (pb.pAt depth : ℚ) / (pb.wAt depth : ℚ) +
          Knapsack.fubF pb (depth + 1) 0 fuel
    else 0

/-- Unfolding equation of fubLoop at positive fuel. -/
theorem Knapsack.fubLoop_succ (pb : Knapsack) (d : Nat) (c : Int) (fuel : Nat) :
    pb.fubLoop d c (fuel + 1) =
      if 0 < c ∧ d < pb.inst.nb_items then
        if pb.wAt d ≤ c then pb.pAt d + pb.fubLoop (d + 1) (c - pb.wAt d) fuel
        else Int.fdiv (c * pb.pAt d) (pb.wAt d) + pb.fubLoop (d + 1) 0 fuel
      else 0 :=
  rfl

/-- Unfolding equation of fubF at positive fuel. -/
theorem Knapsack.fubF_succ (pb : Knapsack) (d : Nat) (c : ℚ) (fuel : Nat) :
    pb.fubF d c (fuel + 1) =
      if 0 < c ∧ d < pb.inst.nb_items then
        if (pb.wAt d : ℚ) ≤ c then
          (pb.pAt d : ℚ) + pb.fubF (d + 1) (c - (pb.wAt d : ℚ)) fuel
        else
          c * (pb.pAt d : ℚ) / (pb.wAt d : ℚ) + pb.fubF (d + 1) 0 fuel
      else 0 :=
  rfl

/-- At nonpositive capacity the integer loop contributes nothing. -/
theorem Knapsack.fubLoop_of_nonpos (pb : Knapsack) (d : Nat) (c : Int)
    (hc : ¬ 0 < c) : ∀ fuel, pb.fubLoop d c fuel = 0 := by
  intro fuel
  cases fuel with
  | zero => rfl
  | succ fuel => rw [pb.fubLoop_succ, if_neg (fun h => hc h.1)]

/-- At nonpositive capacity the rational bound contributes nothing. -/
theorem Knapsack.fubF_of_nonpos (pb : Knapsack) (d : Nat) (c : ℚ)
    (hc : ¬ 0 < c) : ∀ fuel, pb.fubF d c fuel = 0 := by
  intro fuel
  cases fuel with
  | zero => rfl
  | succ fuel => rw [pb.fubF_succ, if_neg (fun h => hc h.1)]

/-- The rational bound is nonnegative under positive weights and
nonnegative profits along the order. -/
theorem Knapsack.fubF_nonneg (pb : Knapsack)
    (hw : ∀ k, k < pb.inst.nb_items → 0 < pb.wAt k)
    (hp : ∀ k, k < pb.inst.nb_items → 0 ≤ pb.pAt k) :
    ∀ (fuel d : Nat) (c : ℚ), 0 ≤ pb.fubF d c fuel := by
  intro fuel
  induction fuel with
  | zero => intro d c; exact le_refl 0
  | succ fuel ih =>
    intro d c
    by_cases hc : 0 < c ∧ d < pb.inst.nb_items
    · obtain ⟨hc0, hdn⟩ := hc
      have hwq : (0 : ℚ) < (pb.wAt d : ℚ) := by exact_mod_cast hw d hdn
      have hpq : (0 : ℚ) ≤ (pb.pAt d : ℚ) := by exact_mod_cast hp d hdn
      rw [pb.fubF_succ, if_pos ⟨hc0, hdn⟩]
      split
      · exact add_nonneg hpq (ih _ _)
      · exact add_nonneg
          (div_nonneg (mul_nonneg (le_of_lt hc0) hpq) (le_of_lt hwq)) (ih _ _)
    · rw [pb.fubF_succ, if_neg hc]

/-- The positional ratio is nonnegative under positive weights and
nonnegative profits. -/
theorem Knapsack.ratioAt_nonneg (pb : Knapsack)
    (hw : ∀ k, k < pb.inst.nb_items → 0 < pb.wAt k)
    (hp : ∀ k, k < pb.inst.nb_items → 0 ≤ pb.pAt k)
    (d : Nat) (hd : d < pb.inst.nb_items) : 0 ≤ pb.ratioAt d := by
  unfold Knapsack.ratioAt
  have hwq : (0 : ℚ) < (pb.wAt d : ℚ) := by exact_mod_cast hw d hd
  have hpq : (0 : ℚ) ≤ (pb.pAt d : ℚ) := by exact_mod_cast hp d hd
  exact div_nonneg hpq (le_of_lt hwq)

/-- Slope bound for the rational greedy bound: increasing the capacity
increases the bound by at most the increase times any upper bound R on
the ratios of the remaining items. -/
theorem Knapsack.fubF_slope (pb : Knapsack)
    (hw : ∀ k, k < pb.inst.nb_items → 0 < pb.wAt k)
    (hp : ∀ k, k < pb.inst.nb_items → 0 ≤ pb.pAt k)
    (R : ℚ) (hR0 : 0 ≤ R) :
    ∀ (fuel d : Nat) (c c' : ℚ),
      (∀ k, d ≤ k → k < pb.inst.nb_items → pb.ratioAt k ≤ R) →
      0 ≤ c' → c' ≤ c →
      pb.fubF d c fuel ≤ pb.fubF d c' fuel + (c - c') * R := by
  intro fuel
  induction fuel with
  | zero =>
    intro d c c' _ _h0 hcc
    show (0 : ℚ) ≤ 0 + (c - c') * R
    have := mul_nonneg (sub_nonneg.2 hcc) hR0
    linarith
  | succ fuel ih =>
    intro d c c' hRk h0 hcc
    have hprod : 0 ≤ (c - c') * R := mul_nonneg (sub_nonneg.2 hcc) hR0
    by_cases hc : 0 < c ∧ d < pb.inst.nb_items
    case neg =>
      rw [pb.fubF_succ d c fuel, if_neg hc]
      have := pb.fubF_nonneg hw hp (fuel + 1) d c'
      linarith
    case pos =>
      obtain ⟨hc0, hdn⟩ := hc
      have hwq : (0 : ℚ) < (pb.wAt d : ℚ) := by exact_mod_cast hw d hdn
      have hpq : (0 : ℚ) ≤ (pb.pAt d : ℚ) := by exact_mod_cast hp d hdn
      have hRd : (pb.pAt d : ℚ) / (pb.wAt d : ℚ) ≤ R := hRk d (le_refl d) hdn
      have hRk1 : ∀ k, d + 1 ≤ k → k < pb.inst.nb_items → pb.ratioAt k ≤ R :=
        fun k hk hkn => hRk k (le_trans (Nat.le_succ d) hk) hkn
      by_cases hwc : (pb.wAt d : ℚ) ≤ c
      · rw [pb.fubF_succ d c fuel, if_pos ⟨hc0, hdn⟩, if_pos hwc]
        by_cases hwc2 : (pb.wAt d : ℚ) ≤ c'
        · have hc2 : (0 : ℚ) < c' := lt_of_lt_of_le hwq hwc2
          rw [pb.fubF_succ d c' fuel, if_pos ⟨hc2, hdn⟩, if_pos hwc2]
          have hih := ih (d + 1) (c - (pb.wAt d : ℚ)) (c' - (pb.wAt d : ℚ))
            hRk1 (sub_nonneg.2 hwc2) (by linarith)
          have heq : (c - (pb.wAt d : ℚ)) - (c' - (pb.wAt d : ℚ)) = c - c' := by
            ring
          rw [heq] at hih
          linarith
        · have hge : c' * (pb.pAt d : ℚ) / (pb.wAt d : ℚ) ≤
              pb.fubF d c' (fuel + 1) := by
            by_cases h0c : 0 < c'
            · rw [pb.fubF_succ d c' fuel, if_pos ⟨h0c, hdn⟩, if_neg hwc2,
                pb.fubF_of_nonpos (d + 1) 0 (by norm_num) fuel, add_zero]
            · have hc0' : c' = 0 := le_antisymm (not_lt.1 h0c) h0
              rw [hc0', pb.fubF_of_nonpos d 0 (by norm_num) (fuel + 1)]
              simp
          have hih := ih (d + 1) (c - (pb.wAt d : ℚ)) 0 hRk1 (le_refl 0)
            (by linarith)
          rw [sub_zero, pb.fubF_of_nonpos (d + 1) 0 (by norm_num) fuel,
            zero_add] at hih
          have hwc' : c' < (pb.wAt d : ℚ) := not_le.1 hwc2
          have hkey : (pb.pAt d : ℚ) - c' * (pb.pAt d : ℚ) / (pb.wAt d : ℚ) ≤
              ((pb.wAt d : ℚ) - c') * R := by
            have h1 : (pb.pAt d : ℚ) - c' * (pb.pAt d : ℚ) / (pb.wAt d : ℚ) =
                ((pb.wAt d : ℚ) - c') * ((pb.pAt d : ℚ) / (pb.wAt d : ℚ)) := by
              field_simp
              ring
            rw [h1]
            exact mul_le_mul_of_nonneg_left hRd (by linarith)
          linarith
      · rw [pb.fubF_succ d c fuel, if_pos ⟨hc0, hdn⟩, if_neg hwc,
          pb.fubF_of_nonpos (d + 1) 0 (by norm_num) fuel, add_zero]
        have hwc2 : ¬ ((pb.wAt d : ℚ) ≤ c') := fun h => hwc (le_trans h hcc)
        have hge : c' * (pb.pAt d : ℚ) / (pb.wAt d : ℚ) ≤
            pb.fubF d c' (fuel + 1) := by
          by_cases h0c : 0 < c'
          · rw [pb.fubF_succ d c' fuel, if_pos ⟨h0c, hdn⟩, if_neg hwc2,
              pb.fubF_of_nonpos (d + 1) 0 (by norm_num) fuel, add_zero]
          · have hc0' : c' = 0 := le_antisymm (not_lt.1 h0c) h0
            rw [hc0', pb.fubF_of_nonpos d 0 (by norm_num) (fuel + 1)]
            simp
        have hfrac : c * (pb.pAt d : ℚ) / (pb.wAt d : ℚ) -
            c' * (pb.pAt d : ℚ) / (pb.wAt d : ℚ) ≤ (c - c') * R := by
          have h1 : c * (pb.pAt d : ℚ) / (pb.wAt d : ℚ) -
              c' * (pb.pAt d : ℚ) / (pb.wAt d : ℚ) =
              (c - c') * ((pb.pAt d : ℚ) / (pb.wAt d : ℚ)) := by
            field_simp
            ring
          rw [h1]
          exact mul_le_mul_of_nonneg_left hRd (sub_nonneg.2 hcc)
        linarith

/-- Skipping the current item never improves the rational bound when the
order is sorted by nonincreasing ratio. -/
theorem Knapsack.fubF_skip (pb : Knapsack)
    (hw : ∀ k, k < pb.inst.nb_items → 0 < pb.wAt k)
    (hp : ∀ k, k < pb.inst.nb_items → 0 ≤ pb.pAt k)
    (hs : ∀ k1 k2, k1 ≤ k2 → k2 < pb.inst.nb_items →
      pb.ratioAt k2 ≤ pb.ratioAt k1)
    (fuel d : Nat) (c : ℚ) (hdn : d < pb.inst.nb_items) :
    pb.fubF (d + 1) c fuel ≤ pb.fubF d c (fuel + 1) := by
  by_cases hc0 : 0 < c
  · have hwq : (0 : ℚ) < (pb.wAt d : ℚ) := by exact_mod_cast hw d hdn
    have hR0 : 0 ≤ pb.ratioAt d := pb.ratioAt_nonneg hw hp d hdn
    have hRk : ∀ k, d + 1 ≤ k → k < pb.inst.nb_items →
        pb.ratioAt k ≤ pb.ratioAt d :=
      fun k hk hkn => hs d k (le_trans (Nat.le_succ d) hk) hkn
    by_cases hwc : (pb.wAt d : ℚ) ≤ c
    · rw [pb.fubF_succ d c fuel, if_pos ⟨hc0, hdn⟩, if_pos hwc]
      have hslope := pb.fubF_slope hw hp (pb.ratioAt d) hR0 fuel (d + 1) c
        (c - (pb.wAt d : ℚ)) hRk (sub_nonneg.2 hwc) (by linarith)
      have hcan : (c - (c - (pb.wAt d : ℚ))) * pb.ratioAt d = (pb.pAt d : ℚ) := by
        have h1 : c - (c - (pb.wAt d : ℚ)) = (pb.wAt d : ℚ) := by ring
        rw [h1]
        unfold Knapsack.ratioAt
        field_simp
      rw [hcan] at hslope
      linarith
    · rw [pb.fubF_succ d c fuel, if_pos ⟨hc0, hdn⟩, if_neg hwc,
        pb.fubF_of_nonpos (d + 1) 0 (by norm_num) fuel, add_zero]
      have hslope := pb.fubF_slope hw hp (pb.ratioAt d) hR0 fuel (d + 1) c 0
        hRk (le_refl 0) (le_of_lt hc0)
      rw [pb.fubF_of_nonpos (d + 1) 0 (by norm_num) fuel, zero_add,
        sub_zero] at hslope
      have hcan : c * pb.ratioAt d = c * (pb.pAt d : ℚ) / (pb.wAt d : ℚ) := by
        unfold Knapsack.ratioAt
        exact (mul_div_assoc _ _ _).symm
      rw [hcan] at hslope
      linarith
  · rw [pb.fubF_of_nonpos (d + 1) c hc0 fuel, pb.fubF_of_nonpos d c hc0 (fuel + 1)]

/-- Characterisation of next_variable returning a variable. -/
theorem Knapsack.next_variable_eq_some (pb : Knapsack) (d : Nat) (v : Nat) :
    pb.next_variable d = some v ↔
      d < pb.inst.nb_items ∧ v = pb.order.getD d 0 := by
  constructor
  · intro hnv
    unfold Knapsack.next_variable at hnv
    split at hnv
    · rename_i h
      exact ⟨h, (Option.some_injective _ hnv).symm⟩
    · cases hnv
  · rintro ⟨h, rfl⟩
    unfold Knapsack.next_variable
    rw [if_pos h]

/-- Every feasible decision sequence from a state has total cost at most
the rational greedy bound, for positional hypotheses: positive weights,
nonnegative profits, ratios nonincreasing along the order. -/
theorem Knapsack.seqProfit_le_fubF (pb : Knapsack)
    (hw : ∀ k, k < pb.inst.nb_items → 0 < pb.wAt k)
    (hp : ∀ k, k < pb.inst.nb_items → 0 ≤ pb.pAt k)
    (hs : ∀ k1 k2, k1 ≤ k2 → k2 < pb.inst.nb_items →
      pb.ratioAt k2 ≤ pb.ratioAt k1) :
    ∀ (seq : List Int) (s : KnapsackState) (r : Int),
      pb.seqProfit s seq = some r →
      (r : ℚ) ≤ pb.fubF s.depth (s.capacity : ℚ) seq.length := by
  intro seq
  induction seq with
  | nil =>
    intro s r h
    unfold Knapsack.seqProfit at h
    split at h
    · have hr : (0 : Int) = r := Option.some_injective _ h
      subst hr
      show ((0 : Int) : ℚ) ≤ 0
      simp
    · cases h
  | cons val rest ih =>
    intro s r h
    unfold Knapsack.seqProfit at h
    cases hnv : pb.next_variable s.depth with
    | none =>
      rw [hnv] at h
      cases h
    | some v =>
      rw [hnv] at h
      dsimp only at h
      obtain ⟨hdn, hveq⟩ := (pb.next_variable_eq_some s.depth v).1 hnv
      by_cases hdom : val ∈ pb.for_each_in_domain v s
      case neg =>
        rw [if_neg hdom] at h
        cases h
      case pos =>
        rw [if_pos hdom] at h
        rw [Option.map_eq_some'] at h
        obtain ⟨r1, hr1, hr⟩ := h
        rcases (pb.mem_for_each_in_domain v s val).1 hdom with hval | ⟨hcap, hval⟩
        · subst hval
          have htrans : pb.transition s { var := v, value := 0 } =
              KnapsackState.mk (s.depth + 1) s.capacity := by
            unfold Knapsack.transition
            simp
          rw [htrans] at hr1
          have hcost : pb.transition_cost s { var := v, value := 0 } = 0 := by
            unfold Knapsack.transition_cost
            simp
          rw [hcost, zero_add] at hr
          subst hr
          have hih : (r1 : ℚ) ≤ pb.fubF (s.depth + 1) (s.capacity : ℚ)
              rest.length :=
            ih (KnapsackState.mk (s.depth + 1) s.capacity) r1 hr1
          have hskip := pb.fubF_skip hw hp hs rest.length s.depth
            (s.capacity : ℚ) hdn
          show (r1 : ℚ) ≤ pb.fubF s.depth (s.capacity : ℚ) (rest.length + 1)
          exact le_trans hih hskip
        · subst hval
          have hwv : pb.inst.weight.getD v 0 = pb.wAt s.depth := by
            unfold Knapsack.wAt
            rw [hveq]
          have hcost : pb.transition_cost s { var := v, value := 1 } =
              pb.pAt s.depth := by
            unfold Knapsack.transition_cost Knapsack.pAt
            rw [hveq]
            simp
          have htrans : pb.transition s { var := v, value := 1 } =
              KnapsackState.mk (s.depth + 1)
                (s.capacity - pb.wAt s.depth) := by
            unfold Knapsack.transition Knapsack.wAt
            rw [hveq]
            simp
          rw [htrans] at hr1
          rw [hcost] at hr
          have hih : (r1 : ℚ) ≤ pb.fubF (s.depth + 1)
              ((s.capacity - pb.wAt s.depth : Int) : ℚ) rest.length :=
            ih (KnapsackState.mk (s.depth + 1)
              (s.capacity - pb.wAt s.depth)) r1 hr1
          push_cast at hih
          rw [hwv] at hcap
          have hc0 : 0 < s.capacity := lt_of_lt_of_le (hw s.depth hdn) hcap
          have hc0q : (0 : ℚ) < (s.capacity : ℚ) := by exact_mod_cast hc0
          have hcapq : (pb.wAt s.depth : ℚ) ≤ (s.capacity : ℚ) := by
            exact_mod_cast hcap
          show (r : ℚ) ≤ pb.fubF s.depth (s.capacity : ℚ) (rest.length + 1)
          rw [pb.fubF_succ, if_pos ⟨hc0q, hdn⟩, if_pos hcapq]
          subst hr
          push_cast
          linarith

/-- The integer loop is the floor of the rational bound: it bounds it
from below, within less than one unit. -/
theorem Knapsack.fubLoop_fubF_bounds (pb : Knapsack) :
    ∀ (fuel d : Nat) (c : Int),
      (pb.fubLoop d c fuel : ℚ) ≤ pb.fubF d (c : ℚ) fuel ∧
      pb.fubF d (c : ℚ) fuel < (pb.fubLoop d c fuel : ℚ) + 1 := by
  intro fuel
  induction fuel with
  | zero =>
    intro d c
    constructor
    · show ((0 : Int) : ℚ) ≤ 0
      simp
    · show (0 : ℚ) < ((0 : Int) : ℚ) + 1
      norm_num
  | succ fuel ih =>
    intro d c
    by_cases hc : 0 < c ∧ d < pb.inst.nb_items
    · obtain ⟨hc0, hdn⟩ := hc
      have hc0q : (0 : ℚ) < (c : ℚ) := by exact_mod_cast hc0
      by_cases hwc : pb.wAt d ≤ c
      · have hwcq : (pb.wAt d : ℚ) ≤ (c : ℚ) := by exact_mod_cast hwc
        rw [pb.fubLoop_succ, if_pos ⟨hc0, hdn⟩, if_pos hwc,
          pb.fubF_succ, if_pos ⟨hc0q, hdn⟩, if_pos hwcq]
        have hih := ih (d + 1) (c - pb.wAt d)
        rw [show ((c - pb.wAt d : Int) : ℚ) = (c : ℚ) - (pb.wAt d : ℚ) by
          push_cast; ring] at hih
        constructor
        · push_cast
          linarith [hih.1]
        · push_cast
          linarith [hih.2]
      · have hw0 : 0 < pb.wAt d := lt_trans hc0 (not_le.1 hwc)
        have hwcq : ¬ ((pb.wAt d : ℚ) ≤ (c : ℚ)) := fun hq =>
          hwc (by exact_mod_cast hq)
        rw [pb.fubLoop_succ, if_pos ⟨hc0, hdn⟩, if_neg hwc,
          pb.fubF_succ, if_pos ⟨hc0q, hdn⟩, if_neg hwcq,
          pb.fubLoop_of_nonpos (d + 1) 0 (by norm_num) fuel,
          pb.fubF_of_nonpos (d + 1) 0 (by norm_num) fuel, add_zero, add_zero]
        have hfd : Int.fdiv (c * pb.pAt d) (pb.wAt d) =
            (c * pb.pAt d) / (pb.wAt d) :=
          Int.fdiv_eq_ediv _ (le_of_lt hw0)
        have hcast : (((pb.wAt d).toNat : ℕ) : ℚ) = (pb.wAt d : ℚ) := by
          rw [← Int.cast_natCast, Int.toNat_of_nonneg (le_of_lt hw0)]
        have hXeq : ((c * pb.pAt d : Int) : ℚ) /
            (((pb.wAt d).toNat : ℕ) : ℚ) =
            (c : ℚ) * (pb.pAt d : ℚ) / (pb.wAt d : ℚ) := by
          rw [hcast]
          push_cast
          ring
        have hfloor : Int.fdiv (c * pb.pAt d) (pb.wAt d) =
            ⌊(c : ℚ) * (pb.pAt d : ℚ) / (pb.wAt d : ℚ)⌋ := by
          rw [hfd, ← hXeq, Rat.floor_intCast_div_natCast,
            Int.toNat_of_nonneg (le_of_lt hw0)]
        constructor
        · rw [hfloor]
          exact Int.floor_le _
        · rw [hfloor]
          exact Int.lt_floor_add_one _
    · have hcq : ¬ (0 < (c : ℚ) ∧ d < pb.inst.nb_items) := by
        intro hq
        exact hc ⟨by exact_mod_cast hq.1, hq.2⟩
      rw [pb.fubLoop_succ, if_neg hc, pb.fubF_succ, if_neg hcq]
      norm_num

/-- A feasible sequence provides exactly one value per remaining
variable. -/
theorem Knapsack.seqProfit_length (pb : Knapsack) :
    ∀ (seq : List Int) (s : KnapsackState) (r : Int),
      pb.seqProfit s seq = some r →
      seq.length = pb.inst.nb_items - s.depth := by
  intro seq
  induction seq with
  | nil =>
    intro s r h
    unfold Knapsack.seqProfit at h
    split at h
    · rename_i hd
      simp only [List.length_nil]
      omega
    · cases h
  | cons val rest ih =>
    intro s r h
    unfold Knapsack.seqProfit at h
    cases hnv : pb.next_variable s.depth with
    | none =>
      rw [hnv] at h
      cases h
    | some v =>
      rw [hnv] at h
      dsimp only at h
      obtain ⟨hdn, _⟩ := (pb.next_variable_eq_some s.depth v).1 hnv
      by_cases hdom : val ∈ pb.for_each_in_domain v s
      · rw [if_pos hdom, Option.map_eq_some'] at h
        obtain ⟨r1, hr1, _⟩ := h
        have hrec := ih (pb.transition s { var := v, value := val }) r1 hr1
        have hd : (pb.transition s { var := v, value := val }).depth =
            s.depth + 1 := rfl
        rw [hd] at hrec
        simp only [List.length_cons]
        omega
      · rw [if_neg hdom] at h
        cases h

/-- Positive weights positionally, for the constructed order. -/
theorem new_wAt_pos (inst : KnapsackInstance)
    (hlw : inst.weight.length = inst.nb_items)
    (hw : ∀ w ∈ inst.weight, 0 < w) :
    ∀ k, k < (Knapsack.new inst).inst.nb_items → 0 < (Knapsack.new inst).wAt k := by
  intro k hk
  have hidx := new_order_entry_lt inst k hk
  unfold Knapsack.wAt
  show (0 : Int) < inst.weight.getD ((Knapsack.new inst).order.getD k 0) 0
  rw [List.getD_eq_getElem _ _ (by rw [hlw]; exact hidx)]
  exact hw _ (List.getElem_mem _)

/-- Nonnegative profits positionally, for the constructed order. -/
theorem new_pAt_nonneg (inst : KnapsackInstance)
    (hp : ∀ p ∈ inst.profit, 0 ≤ p) :
    ∀ k, k < (Knapsack.new inst).inst.nb_items →
      0 ≤ (Knapsack.new inst).pAt k := by
  intro k _hk
  unfold Knapsack.pAt
  show (0 : Int) ≤ inst.profit.getD ((Knapsack.new inst).order.getD k 0) 0
  exact getD_nonneg inst.profit hp _

/-- Claim C2 (amended): for an instance with strictly positive weights
(and the weight list of the declared length) and nonnegative profits,
fast_upper_bound at any reachable state is at least the total
transition cost of every feasible decision sequence completing the
state, hence at least the true optimal achievable profit. -/
theorem fubLoop_exact_admissible (inst : KnapsackInstance)
    (hlw : inst.weight.length = inst.nb_items)
    (hw : ∀ w ∈ inst.weight, 0 < w)
    (hp : ∀ p ∈ inst.profit, 0 ≤ p)
    (s : KnapsackState) (_hreach : (Knapsack.new inst).Reachable s)
    (seq : List Int) (r : Int)
    (hseq : (Knapsack.new inst).seqProfit s seq = some r) :
    r ≤ (KnapsackRelax.mk (Knapsack.new inst)).fast_upper_bound s := by
  have hwpos := new_wAt_pos inst hlw hw
  have hppos := new_pAt_nonneg inst hp
  have hsort : ∀ k1 k2, k1 ≤ k2 → k2 < (Knapsack.new inst).inst.nb_items →
      (Knapsack.new inst).ratioAt k2 ≤ (Knapsack.new inst).ratioAt k1 :=
    fun k1 k2 h12 h2 => new_sorted_ratioAt inst hlw hw k1 k2 h12 h2
  have hmain := (Knapsack.new inst).seqProfit_le_fubF hwpos hppos hsort
    seq s r hseq
  have hlen := (Knapsack.new inst).seqProfit_length seq s r hseq
  rw [hlen] at hmain
  have hbounds := (Knapsack.new inst).fubLoop_fubF_bounds
    ((Knapsack.new inst).inst.nb_items - s.depth) s.depth s.capacity
  have hlt : (r : ℚ) < ((Knapsack.new inst).fubLoop s.depth s.capacity
      ((Knapsack.new inst).inst.nb_items - s.depth) : ℚ) + 1 :=
    lt_of_le_of_lt hmain hbounds.2
  have hltz : r < (Knapsack.new inst).fubLoop s.depth s.capacity
      ((Knapsack.new inst).inst.nb_items - s.depth) + 1 := by
    exact_mod_cast hlt
  show r ≤ (Knapsack.new inst).fubLoop s.depth s.capacity
    ((Knapsack.new inst).inst.nb_items - s.depth)
  omega

/-- A one-item instance with a zero-weight item: the original claim C2
fails on it. -/
def instZeroW : KnapsackInstance :=
  { nb_items := 1, capacity := 0, weight := [0], profit := [5] }

/-- The Knapsack problem built from the zero-weight instance. -/
def pbZeroW : Knapsack :=
  Knapsack.new instZeroW

/-- Claim C2 (code bug evidence): with a zero-weight, profit-5 item and
capacity 0, the initial state is reachable, the sequence taking the item
is feasible with total cost 5, but fast_upper_bound returns 0, below the
optimum the spec guarantees it never underestimates. On this input the
embedding is bit-faithful to the program: the bound loop never runs
(capacity is not positive) and no floating-point operation executes. -/
theorem c2_counterexample :
    (∀ w ∈ pbZeroW.inst.weight, 0 ≤ w) ∧
    (∀ p ∈ pbZeroW.inst.profit, 0 ≤ p) ∧
    pbZeroW.seqProfit pbZeroW.initial_state [1] = some 5 ∧
    (KnapsackRelax.mk pbZeroW).fast_upper_bound pbZeroW.initial_state = 0 ∧
    ¬ ((5 : Int) ≤ 0) := by
  decide

/-- The exact-model admissibility theorem applied on the one-item
positive-weight instance at the initial state with the take-the-item
sequence. -/
theorem fubLoop_exact_admissible_witness :
    pbOne.inst.weight.length = pbOne.inst.nb_items ∧
    (∀ w ∈ pbOne.inst.weight, 0 < w) ∧
    (∀ p ∈ pbOne.inst.profit, 0 ≤ p) ∧
    pbOne.seqProfit pbOne.initial_state [1] = some 3 ∧
    (3 : Int) ≤ (KnapsackRelax.mk pbOne).fast_upper_bound pbOne.initial_state :=
  ⟨by decide, by decide, by decide, by decide,
    fubLoop_exact_admissible instOne (by decide) (by decide) (by decide)
      _ Knapsack.Reachable.init [1] 3 (by decide)⟩

/-- Soundness of the enumeration levels: every state in level d is
reachable and has depth d. -/
theorem Knapsack.layer_sound (pb : Knapsack) :
    ∀ (d : Nat) (s : KnapsackState),
      s ∈ pb.layer d → pb.Reachable s ∧ s.depth = d := by
  intro d
  induction d with
  | zero =>
    intro s hs
    have hs0 : s = pb.initial_state := List.mem_singleton.1 hs
    subst hs0
    exact ⟨Knapsack.Reachable.init, rfl⟩
  | succ d ih =>
    intro s hs
    rw [Knapsack.layer] at hs
    split at hs
    · rename_i hdn
      rw [List.mem_flatMap] at hs
      obtain ⟨t, ht, hst⟩ := hs
      rw [List.mem_map] at hst
      obtain ⟨val, hval, hs2⟩ := hst
      obtain ⟨hreach, hdepth⟩ := ih t ht
      have hnv : pb.next_variable t.depth = some (pb.order.getD d 0) := by
        rw [hdepth]
        exact (pb.next_variable_eq_some d _).2 ⟨hdn, rfl⟩
      subst hs2
      refine ⟨Knapsack.Reachable.step t _ val hreach hnv hval, ?_⟩
      show t.depth + 1 = d + 1
      rw [hdepth]
    · cases hs

/-- Completeness of the enumeration levels: every reachable state shows
up in the level of its depth. -/
theorem Knapsack.layer_complete (pb : Knapsack) :
    ∀ s : KnapsackState, pb.Reachable s → s ∈ pb.layer s.depth := by
  intro s hs
  induction hs with
  | init =>
    show pb.initial_state ∈ pb.layer 0
    rw [Knapsack.layer]
    exact List.mem_singleton.2 rfl
  | step s v val _hreach hnv hval ih =>
    obtain ⟨hdn, hveq⟩ := (pb.next_variable_eq_some s.depth v).1 hnv
    show pb.transition s { var := v, value := val } ∈ pb.layer (s.depth + 1)
    rw [Knapsack.layer, if_pos hdn, List.mem_flatMap]
    refine ⟨s, ih, List.mem_map.2 ⟨val, ?_, ?_⟩⟩
    · rw [← hveq]
      exact hval
    · rw [← hveq]

/-- The reachable-capacity index entry at an in-range depth. -/
theorem compute_meta_states_getElem (mpb : Knapsack) (d : Nat)
    (hd : d < mpb.inst.nb_items) :
    (compute_meta_states mpb)[d]? =
      some ((mpb.layer d).map KnapsackState.capacity) := by
  unfold compute_meta_states
  rw [List.getElem?_map, List.getElem?_range hd]
  rfl

/-- Characterisation of the successful range query. -/
theorem leastGE_some (caps : List Int) (c m : Int) :
    leastGE caps c = some m ↔
      m ∈ caps ∧ c ≤ m ∧ ∀ x ∈ caps, c ≤ x → m ≤ x := by
  unfold leastGE
  haveI : Std.Antisymm (fun (a b : Int) => a ≤ b) :=
    ⟨fun h1 h2 => le_antisymm h1 h2⟩
  rw [List.min?_eq_some_iff (fun a => le_refl a) (fun a b => min_choice a b)
    (fun a b c => le_min_iff)]
  constructor
  · rintro ⟨hmem, hall⟩
    rw [List.mem_filter] at hmem
    obtain ⟨hm, hcm⟩ := hmem
    refine ⟨hm, of_decide_eq_true hcm, ?_⟩
    intro x hx hcx
    exact hall x (List.mem_filter.2 ⟨hx, decide_eq_true hcx⟩)
  · rintro ⟨hm, hcm, hall⟩
    refine ⟨List.mem_filter.2 ⟨hm, decide_eq_true hcm⟩, ?_⟩
    intro b hb
    rw [List.mem_filter] at hb
    exact hall b hb.1 (of_decide_eq_true hb.2)

/-- Characterisation of the empty range query. -/
theorem leastGE_none (caps : List Int) (c : Int) :
    leastGE caps c = none ↔ ∀ x ∈ caps, ¬ c ≤ x := by
  unfold leastGE
  rw [List.min?_eq_none_iff, List.filter_eq_nil_iff]
  constructor
  · intro h x hx hcx
    exact h x hx (decide_eq_true hcx)
  · intro h x hx hcx
    exact h x hx (of_decide_eq_true hcx)

/-- Claim C3: for a state at depth below nb_items, the exact-aware
compress keeps the depth and snaps the capacity to the least capacity
reachable at that depth in the meta problem transition system that is
at least the state capacity, or leaves the state unchanged when no such
capacity exists. -/
theorem c3_compress_exact_snap (mpb : Knapsack) (s : KnapsackState)
    (hd : s.depth < mpb.inst.nb_items) :
    ∃ t, compress (compute_meta_states mpb) s = some t ∧
      t.depth = s.depth ∧
      ((∃ x, mpb.Reachable (KnapsackState.mk s.depth x) ∧ s.capacity ≤ x) →
        IsLeast {x | mpb.Reachable (KnapsackState.mk s.depth x) ∧
          s.capacity ≤ x} t.capacity) ∧
      ((¬ ∃ x, mpb.Reachable (KnapsackState.mk s.depth x) ∧ s.capacity ≤ x) →
        t = s) := by
  have hcapmem : ∀ x : Int,
      x ∈ (mpb.layer s.depth).map KnapsackState.capacity ↔
        mpb.Reachable (KnapsackState.mk s.depth x) := by
    intro x
    rw [List.mem_map]
    constructor
    · rintro ⟨t, ht, rfl⟩
      obtain ⟨hr, hdep⟩ := mpb.layer_sound s.depth t ht
      rcases t with ⟨td, tc⟩
      dsimp at hdep ⊢
      subst hdep
      exact hr
    · intro hr
      exact ⟨KnapsackState.mk s.depth x, mpb.layer_complete _ hr, rfl⟩
  have hcompress : compress (compute_meta_states mpb) s =
      match leastGE ((mpb.layer s.depth).map KnapsackState.capacity)
        s.capacity with
      | some cap => some (KnapsackState.mk s.depth cap)
      | none => some s := by
    unfold compress
    rw [compute_meta_states_getElem mpb s.depth hd]
  cases hle : leastGE ((mpb.layer s.depth).map KnapsackState.capacity)
      s.capacity with
  | some m =>
    obtain ⟨hm, hcm, hall⟩ := (leastGE_some _ _ _).1 hle
    refine ⟨KnapsackState.mk s.depth m, ?_, rfl, fun _ => ?_, fun hnone => ?_⟩
    · rw [hcompress, hle]
    · constructor
      · exact ⟨(hcapmem m).1 hm, hcm⟩
      · intro x hx
        exact hall x ((hcapmem x).2 hx.1) hx.2
    · exact absurd ⟨m, (hcapmem m).1 hm, hcm⟩ hnone
  | none =>
    have hno := (leastGE_none _ _).1 hle
    refine ⟨s, ?_, rfl, fun hex => ?_, fun _ => rfl⟩
    · rw [hcompress, hle]
    · obtain ⟨x, hx, hcx⟩ := hex
      exact absurd hcx (hno x ((hcapmem x).2 hx))

/-- Witness for C3 on the one-item problem at depth 0 with capacity 5. -/
theorem c3_compress_exact_snap_witness :
    (0 : Nat) < pbOne.inst.nb_items ∧
    (∃ t, compress (compute_meta_states pbOne) (KnapsackState.mk 0 5) = some t ∧
      t.depth = 0 ∧
      ((∃ x, pbOne.Reachable (KnapsackState.mk 0 x) ∧ (5 : Int) ≤ x) →
        IsLeast {x | pbOne.Reachable (KnapsackState.mk 0 x) ∧
          (5 : Int) ≤ x} t.capacity) ∧
      ((¬ ∃ x, pbOne.Reachable (KnapsackState.mk 0 x) ∧ (5 : Int) ≤ x) →
        t = KnapsackState.mk 0 5)) :=
  ⟨by decide, c3_compress_exact_snap pbOne (KnapsackState.mk 0 5) (by decide)⟩

/-- Claim C10: the reachable-capacity index has one entry per depth
0..nb_items-1; compress at the terminal depth nb_items indexes past the
end and fails, while at any depth below nb_items the lookup succeeds. -/
theorem c10_compress_depth_bounds (mpb : Knapsack) (s : KnapsackState) :
    (compute_meta_states mpb).length = mpb.inst.nb_items ∧
    (s.depth = mpb.inst.nb_items →
      compress (compute_meta_states mpb) s = none) ∧
    (s.depth < mpb.inst.nb_items →
      (compress (compute_meta_states mpb) s).isSome = true) := by
  have hlen : (compute_meta_states mpb).length = mpb.inst.nb_items := by
    unfold compute_meta_states
    rw [List.length_map, List.length_range]
  refine ⟨hlen, ?_, ?_⟩
  · intro hd
    unfold compress
    rw [List.getElem?_eq_none (by rw [hlen, hd])]
  · intro hd
    have hcompress : compress (compute_meta_states mpb) s =
        match leastGE ((mpb.layer s.depth).map KnapsackState.capacity)
          s.capacity with
        | some cap => some (KnapsackState.mk s.depth cap)
        | none => some s := by
      unfold compress
      rw [compute_meta_states_getElem mpb s.depth hd]
    rw [hcompress]
    cases leastGE ((mpb.layer s.depth).map KnapsackState.capacity)
        s.capacity with
    | some m => rfl
    | none => rfl

/-- Witness for C10 on the one-item problem: lookup fails at depth 1 and
succeeds at depth 0. -/
theorem c10_compress_depth_bounds_witness :
    (compute_meta_states pbOne).length = pbOne.inst.nb_items ∧
    compress (compute_meta_states pbOne) (KnapsackState.mk 1 0) = none ∧
    (compress (compute_meta_states pbOne) (KnapsackState.mk 0 0)).isSome
      = true :=
  ⟨(c10_compress_depth_bounds pbOne (KnapsackState.mk 1 0)).1,
    (c10_compress_depth_bounds pbOne (KnapsackState.mk 1 0)).2.1 rfl,
    (c10_compress_depth_bounds pbOne (KnapsackState.mk 0 0)).2.2 (by decide)⟩

/-- Every value of a feasible sequence is 0 or 1. -/
theorem Knapsack.seqProfit_values (pb : Knapsack) :
    ∀ (seq : List Int) (s : KnapsackState) (r : Int),
      pb.seqProfit s seq = some r → ∀ v ∈ seq, v = 0 ∨ v = 1 := by
  intro seq
  induction seq with
  | nil =>
    intro s r _ v hv
    cases hv
  | cons val rest ih =>
    intro s r h v hv
    unfold Knapsack.seqProfit at h
    cases hnv : pb.next_variable s.depth with
    | none =>
      rw [hnv] at h
      cases h
    | some w =>
      rw [hnv] at h
      dsimp only at h
      by_cases hdom : val ∈ pb.for_each_in_domain w s
      · rw [if_pos hdom, Option.map_eq_some'] at h
        obtain ⟨r1, hr1, _⟩ := h
        rcases List.mem_cons.1 hv with hveq | hv2
        · subst hveq
          rcases (pb.mem_for_each_in_domain w s v).1 hdom with h0 | ⟨_, h1⟩
          · exact Or.inl h0
          · exact Or.inr h1
        · exact ih _ r1 hr1 v hv2
      · rw [if_neg hdom] at h
        cases h

/-- The three-item end-to-end instance of the spec. -/
def inst8 : KnapsackInstance :=
  { nb_items := 3, capacity := 10, weight := [5, 4, 6], profit := [10, 4, 9] }

/-- The Knapsack problem built from the end-to-end instance. -/
def pb8 : Knapsack :=
  Knapsack.new inst8

/-- Claim C8: the construction orders the items as 0, 2, 1 by descending
ratio; the sequence taking item 0 (first decision) and item 1 (third
decision) is feasible with total cost 14; and 14 is the maximum total
cost over all feasible decision sequences, attained only by that
sequence. In original item order the optimal picks are 1, 1, 0. -/
theorem c8_end_to_end :
    pb8.order = [0, 2, 1] ∧
    pb8.seqProfit pb8.initial_state [1, 0, 1] = some 14 ∧
    ∀ (seq : List Int) (r : Int),
      pb8.seqProfit pb8.initial_state seq = some r →
      r ≤ 14 ∧ (r = 14 → seq = [1, 0, 1]) := by
  refine ⟨by decide, by decide, ?_⟩
  intro seq r h
  have hlen : seq.length = 3 :=
    pb8.seqProfit_length seq pb8.initial_state r h
  have hvals := pb8.seqProfit_values seq pb8.initial_state r h
  obtain ⟨a, b, c, rfl⟩ := List.length_eq_three.1 hlen
  have ha := hvals a (by simp)
  have hb := hvals b (by simp)
  have hc := hvals c (by simp)
  rcases ha with rfl | rfl <;> rcases hb with rfl | rfl <;>
    rcases hc with rfl | rfl
  · rw [show pb8.seqProfit pb8.initial_state [0, 0, 0] = some 0 by decide] at h
    have hr : (0 : Int) = r := Option.some_injective _ h
    subst hr
    exact ⟨by norm_num, fun h14 => absurd h14 (by norm_num)⟩
  · rw [show pb8.seqProfit pb8.initial_state [0, 0, 1] = some 4 by decide] at h
    have hr : (4 : Int) = r := Option.some_injective _ h
    subst hr
    exact ⟨by norm_num, fun h14 => absurd h14 (by norm_num)⟩
  · rw [show pb8.seqProfit pb8.initial_state [0, 1, 0] = some 9 by decide] at h
    have hr : (9 : Int) = r := Option.some_injective _ h
    subst hr
    exact ⟨by norm_num, fun h14 => absurd h14 (by norm_num)⟩
  · rw [show pb8.seqProfit pb8.initial_state [0, 1, 1] = some 13 by decide] at h
    have hr : (13 : Int) = r := Option.some_injective _ h
    subst hr
    exact ⟨by norm_num, fun h14 => absurd h14 (by norm_num)⟩
  · rw [show pb8.seqProfit pb8.initial_state [1, 0, 0] = some 10 by decide] at h
    have hr : (10 : Int) = r := Option.some_injective _ h
    subst hr
    exact ⟨by norm_num, fun h14 => absurd h14 (by norm_num)⟩
  · rw [show pb8.seqProfit pb8.initial_state [1, 0, 1] = some 14 by decide] at h
    have hr : (14 : Int) = r := Option.some_injective _ h
    subst hr
    exact ⟨le_refl 14, fun _ => rfl⟩
  · rw [show pb8.seqProfit pb8.initial_state [1, 1, 0] = none by decide] at h
    cases h
  · rw [show pb8.seqProfit pb8.initial_state [1, 1, 1] = none by decide] at h
    cases h

/-- Witness for C8: the optimum sequence discharges the quantified
part of the claim at the optimal value. -/
theorem c8_end_to_end_witness :
    pb8.seqProfit pb8.initial_state [1, 0, 1] = some 14 ∧
    ((14 : Int) ≤ 14 ∧ ((14 : Int) = 14 → ([1, 0, 1] : List Int) = [1, 0, 1])) :=
  ⟨c8_end_to_end.2.1, c8_end_to_end.2.2 [1, 0, 1] 14 c8_end_to_end.2.1⟩
